import Mathlib

/-!
Shallow embedding of the XOR-rotate stream cipher in src/encrypt.c.

Bytes are modelled as natural numbers; machine overflow of the C
unsigned char shift is made explicit with a reduction modulo 256.
The key is a list of bytes; the input stream is a finite list of bytes
and fread of L bytes returns its first min(L, remaining) elements.
-/

/-- One-bit test of bit 7, mirroring the C expression
(b and 0x80) != 0 ? 1 : 0 from src/encrypt.c line 33. -/
def msbBit (b : Nat) : Nat := if Nat.testBit b 7 then 1 else 0

/-- Left shift of one byte with unsigned char wraparound,
mirroring key[index] <<= 1 in src/encrypt.c line 28. -/
def shl1 (b : Nat) : Nat := (b * 2) % 256

/-- Inner worker for one pass of encrypt_rotate_key_bits
(src/encrypt.c lines 22-37): each byte is shifted left one bit and,
except for the last byte, receives the top bit of the following byte
in its low bit; the last byte receives the saved carry, which is the
top bit of byte 0.  The first argument is the byte whose top bit was
saved in carry at line 24. -/
def passAux (carrySrc : Nat) : List Nat → List Nat
  | [] => []
  | [b] => [shl1 b + msbBit carrySrc]
  | b :: c :: rest => (shl1 b + msbBit c) :: passAux carrySrc (c :: rest)

/-- One iteration of the outer loop of encrypt_rotate_key_bits
(src/encrypt.c lines 22-37): a single-bit left rotation pass over the
whole key. -/
def rotBitsPass (key : List Nat) : List Nat :=
  match key with
  | [] => []
  | k0 :: _ => passAux k0 key

/-- encrypt_rotate_key_bits (src/encrypt.c lines 15-38): the single-bit
pass applied shift times. -/
def encrypt_rotate_key_bits (key : List Nat) : Nat → List Nat
  | 0 => key
  | s + 1 => encrypt_rotate_key_bits (rotBitsPass key) s

/-- compute_gcd (src/encrypt.c lines 40-43). -/
def compute_gcd (a b : Nat) : Nat :=
  if h : b = 0 then a else compute_gcd b (a % b)
termination_by b
decreasing_by exact Nat.mod_lt _ (Nat.pos_of_ne_zero h)

/-- The inner while loop of encrypt_rotate_key_bytes
(src/encrypt.c lines 60-72): walk the cycle starting at index,
moving key[next] into key[pos] until the cycle closes, then store the
saved value.  The C loop needs at most keylength iterations, so it is
given explicit fuel; fuel equal to the key length is always enough. -/
def juggleStep (key : List Nat) (shift idx value pos : Nat) : Nat → List Nat
  | 0 => key
  | fuel + 1 =>
    let next0 := pos + shift
    let next := if next0 ≥ key.length then next0 - key.length else next0
    if next = idx then key.set pos value
    else juggleStep (key.set pos (key.getD next 0)) shift idx value next fuel

/-- The outer for loop of encrypt_rotate_key_bytes
(src/encrypt.c lines 55-75), processing rem cycle leaders starting
at idx. -/
def juggleCycles (key : List Nat) (shift idx : Nat) : Nat → List Nat
  | 0 => key
  | rem + 1 =>
    juggleCycles (juggleStep key shift idx (key.getD idx 0) idx key.length)
      shift (idx + 1) rem

/-- encrypt_rotate_key_bytes (src/encrypt.c lines 45-76): in-place
cyclic byte rotation by shift positions via cycle decomposition,
one cycle per residue class modulo gcd(shift, keylength). -/
def encrypt_rotate_key_bytes (key : List Nat) (shift : Nat) : List Nat :=
  juggleCycles key shift 0 (compute_gcd shift key.length)

/-- encrypt_rotate_key (src/encrypt.c lines 86-99): reduce the shift
modulo the key's bit length, rotate whole bytes, then rotate the
remaining bits. -/
def encrypt_rotate_key (key : List Nat) (shift : Nat) : List Nat :=
  let s := shift % (key.length * 8)
  let key1 := if s / 8 ≠ 0 then encrypt_rotate_key_bytes key (s / 8) else key
  if s % 8 ≠ 0 then encrypt_rotate_key_bits key1 (s % 8) else key1

/-- encrypt_block (src/encrypt.c lines 101-112): XOR the block against
the same number of leading key bytes.  The C code requires
length <= keylength; zipWith realises exactly that access pattern. -/
def encrypt_block (block key : List Nat) : List Nat :=
  List.zipWith Nat.xor block key

/-- encrypt_execute_sequential (src/encrypt.c lines 386-417): read a
chunk of keylength bytes, stop on an empty read, otherwise XOR it with
the live key, emit it, rotate the live key left by one bit and
continue.  Rotation preserves the key length (proved below), so using
key.length for the chunk size matches the constant keylength in C. -/
def encrypt_execute_sequential (key input : List Nat) : List Nat :=
  if (input.take key.length).length = 0 then []
  else
    encrypt_block (input.take key.length) key ++
      encrypt_execute_sequential (encrypt_rotate_key key 1) (input.drop key.length)
termination_by input.length
decreasing_by
  rename_i h
  rw [List.length_take] at h
  rw [List.length_drop]
  omega

-- Basic length preservation facts about the rotation phases.

theorem passAux_length (a : Nat) (l : List Nat) : (passAux a l).length = l.length := by
  induction l with
  | nil => rfl
  | cons b t ih =>
    cases t with
    | nil => rfl
    | cons c r => simpa [passAux] using ih

theorem rotBitsPass_length (key : List Nat) : (rotBitsPass key).length = key.length := by
  cases key with
  | nil => rfl
  | cons k0 t => simpa [rotBitsPass] using passAux_length k0 (k0 :: t)

theorem rotate_key_bits_length (key : List Nat) (n : Nat) :
    (encrypt_rotate_key_bits key n).length = key.length := by
  induction n generalizing key with
  | zero => rfl
  | succ n ih => simp [encrypt_rotate_key_bits, ih, rotBitsPass_length]

theorem juggleStep_length (shift idx value : Nat) :
    ∀ fuel key pos, (juggleStep key shift idx value pos fuel).length = key.length := by
  intro fuel
  induction fuel with
  | zero => intro key pos; rfl
  | succ fuel ih =>
    intro key pos
    simp only [juggleStep]
    split <;> split <;> simp [ih, List.length_set]

theorem juggleCycles_length (shift : Nat) :
    ∀ rem key idx, (juggleCycles key shift idx rem).length = key.length := by
  intro rem
  induction rem with
  | zero => intro key idx; rfl
  | succ rem ih =>
    intro key idx
    simp only [juggleCycles]
    rw [ih, juggleStep_length]

theorem rotate_key_bytes_length (key : List Nat) (shift : Nat) :
    (encrypt_rotate_key_bytes key shift).length = key.length :=
  juggleCycles_length _ _ _ _

theorem rotate_key_length (key : List Nat) (shift : Nat) :
    (encrypt_rotate_key key shift).length = key.length := by
  simp only [encrypt_rotate_key]
  split <;> split <;>
    simp [rotate_key_bits_length, rotate_key_bytes_length]

-- Specification view: the key as a big-endian bit string.  Byte 0 of
-- the key holds the most significant 8 bits of the whole value, so the
-- bits of byte 0 come first.

/-- The 8 bits of one byte, most significant first. -/
def byteBits (b : Nat) : List Bool :=
  [b.testBit 7, b.testBit 6, b.testBit 5, b.testBit 4,
   b.testBit 3, b.testBit 2, b.testBit 1, b.testBit 0]

/-- The whole key as a big-endian bit string. -/
def keyBits : List Nat → List Bool
  | [] => []
  | b :: t => byteBits b ++ keyBits t

/-- All entries are bytes.  Every key loaded from a file satisfies this. -/
abbrev Bounded (l : List Nat) : Prop := ∀ b ∈ l, b < 256

theorem byteBits_length (b : Nat) : (byteBits b).length = 8 := rfl

theorem keyBits_cons (b : Nat) (t : List Nat) :
    keyBits (b :: t) = byteBits b ++ keyBits t := rfl

theorem keyBits_length (l : List Nat) : (keyBits l).length = 8 * l.length := by
  induction l with
  | nil => rfl
  | cons b t ih =>
    rw [keyBits_cons, List.length_append, byteBits_length, ih]
    simp
    omega

set_option maxRecDepth 40000 in
theorem byteBits_step : ∀ b, b < 256 → ∀ t : Bool,
    byteBits (shl1 b + (if t then 1 else 0)) = (byteBits b).tail ++ [t] := by decide

theorem byteBits_step' (b c : Nat) (hb : b < 256) :
    byteBits (shl1 b + msbBit c) = (byteBits b).tail ++ [c.testBit 7] := by
  have := byteBits_step b hb (c.testBit 7)
  simpa [msbBit] using this

theorem passAux_keyBits (a : Nat) : ∀ (t : List Nat) (b : Nat), b < 256 →
    (∀ x ∈ t, x < 256) →
    keyBits (passAux a (b :: t)) =
      (byteBits b).tail ++ keyBits t ++ [a.testBit 7] := by
  intro t
  induction t with
  | nil =>
    intro b hb _
    simp [passAux, keyBits, byteBits_step' b a hb, keyBits_cons]
  | cons c r ih =>
    intro b hb hcr
    have hc : c < 256 := hcr c (by simp)
    have hr : ∀ x ∈ r, x < 256 := fun x hx => hcr x (by simp [hx])
    show keyBits ((shl1 b + msbBit c) :: passAux a (c :: r)) = _
    rw [keyBits_cons, ih c hc hr, byteBits_step' b c hb]
    have hhead : c.testBit 7 :: (byteBits c).tail = byteBits c := rfl
    rw [keyBits_cons, ← hhead]
    simp only [List.append_assoc, List.cons_append, List.singleton_append]
    simp

theorem rotBitsPass_keyBits (key : List Nat) (hb : Bounded key) :
    keyBits (rotBitsPass key) = (keyBits key).rotate 1 := by
  cases key with
  | nil => simp [rotBitsPass, keyBits, List.rotate_nil]
  | cons k0 t =>
    have hk0 : k0 < 256 := hb k0 (by simp)
    have ht : ∀ x ∈ t, x < 256 := fun x hx => hb x (by simp [hx])
    show keyBits (passAux k0 (k0 :: t)) = _
    rw [passAux_keyBits k0 t k0 hk0 ht]
    have hlen : 1 ≤ (keyBits (k0 :: t)).length := by
      rw [keyBits_length]
      simp only [List.length_cons]
      omega
    rw [List.rotate_eq_drop_append_take hlen]
    have hsplit : keyBits (k0 :: t) = k0.testBit 7 :: ((byteBits k0).tail ++ keyBits t) := rfl
    rw [hsplit]
    simp [List.append_assoc]

-- Boundedness is preserved by the bit pass.

theorem shl1_lt (b : Nat) : shl1 b < 256 := Nat.mod_lt _ (by omega)

theorem shl1_even (b : Nat) : shl1 b % 2 = 0 := by
  unfold shl1
  rw [Nat.mod_mod_of_dvd _ (by omega : (2 : Nat) ∣ 256)]
  omega

theorem msbBit_le (b : Nat) : msbBit b ≤ 1 := by
  unfold msbBit
  split <;> omega

theorem shl1_add_msb_lt (b c : Nat) : shl1 b + msbBit c < 256 := by
  have h1 := shl1_lt b
  have h2 := shl1_even b
  have h3 := msbBit_le c
  omega

theorem passAux_bounded (a : Nat) : ∀ (l : List Nat), Bounded (passAux a l) := by
  intro l
  induction l with
  | nil => intro x hx; simp [passAux] at hx
  | cons b t ih =>
    cases t with
    | nil =>
      intro x hx
      simp only [passAux, List.mem_singleton] at hx
      subst hx
      exact shl1_add_msb_lt b a
    | cons c r =>
      intro x hx
      simp only [passAux, List.mem_cons] at hx
      rcases hx with h | h
      · subst h; exact shl1_add_msb_lt b c
      · exact ih x (by simpa [List.mem_cons] using h)

theorem rotBitsPass_bounded (key : List Nat) : Bounded (rotBitsPass key) := by
  cases key with
  | nil => intro x hx; simp [rotBitsPass] at hx
  | cons k0 t => exact passAux_bounded k0 (k0 :: t)

theorem rotate_key_bits_keyBits (n : Nat) : ∀ (key : List Nat), Bounded key →
    keyBits (encrypt_rotate_key_bits key n) = (keyBits key).rotate n := by
  induction n with
  | zero => intro key _; simp [encrypt_rotate_key_bits, List.rotate_zero]
  | succ n ih =>
    intro key hb
    show keyBits (encrypt_rotate_key_bits (rotBitsPass key) n) = _
    rw [ih (rotBitsPass key) (rotBitsPass_bounded key), rotBitsPass_keyBits key hb,
      List.rotate_rotate]
    rw [Nat.add_comm]

theorem passAux_getD (a : Nat) : ∀ (t : List Nat) (b : Nat) (i : Nat),
    i < (b :: t).length →
    (passAux a (b :: t)).getD i 0 =
      if i + 1 < (b :: t).length then
        shl1 ((b :: t).getD i 0) + msbBit ((b :: t).getD (i + 1) 0)
      else shl1 ((b :: t).getD i 0) + msbBit a := by
  intro t
  induction t with
  | nil =>
    intro b i hi
    simp only [List.length_cons, List.length_nil] at hi ⊢
    interval_cases i
    · simp [passAux]
  | cons c r ih =>
    intro b i hi
    cases i with
    | zero =>
      simp [passAux, List.getD_cons_zero, List.getD_cons_succ]
    | succ j =>
      have hj : j < (c :: r).length := by
        simp only [List.length_cons] at hi ⊢
        omega
      show (passAux a (c :: r)).getD j 0 = _
      rw [ih c j hj]
      simp only [List.length_cons, List.getD_cons_succ]
      by_cases hc2 : j + 1 < r.length + 1
      · rw [if_pos hc2, if_pos (by omega)]
      · rw [if_neg hc2, if_neg (by omega)]

-- Cycle arithmetic for the juggling byte rotation.  cyc i s L t is the
-- position reached after t hops of size s from start i, modulo L.

theorem seq_unfold (key input : List Nat) :
    encrypt_execute_sequential key input =
      if (input.take key.length).length = 0 then []
      else
        encrypt_block (input.take key.length) key ++
          encrypt_execute_sequential (encrypt_rotate_key key 1)
            (input.drop key.length) := by
  rw [encrypt_execute_sequential]

theorem seq_nil (key : List Nat) : encrypt_execute_sequential key [] = [] := by
  rw [seq_unfold]
  simp

theorem enc_enc : ∀ (b k : List Nat), b.length ≤ k.length →
    encrypt_block (encrypt_block b k) k = b := by
  intro b
  induction b with
  | nil => intro k _; rfl
  | cons x xs ih =>
    intro k hk
    cases k with
    | nil => simp at hk
    | cons y ys =>
      show ((x ^^^ y) ^^^ y) :: encrypt_block (encrypt_block xs ys) ys = x :: xs
      rw [Nat.xor_cancel_right, ih ys (by simpa using hk)]

theorem seq_length (key input : List Nat) (hk : 0 < key.length) :
    (encrypt_execute_sequential key input).length = input.length := by
  suffices h : ∀ n (key input : List Nat), input.length ≤ n → 0 < key.length →
      (encrypt_execute_sequential key input).length = input.length from
    h input.length key input (Nat.le_refl _) hk
  intro n
  induction n with
  | zero =>
    intro key input hle _
    have hnil : input = [] := List.eq_nil_of_length_eq_zero (by omega)
    subst hnil
    rw [seq_nil]
  | succ n ih =>
    intro key input hle hk
    rw [seq_unfold]
    by_cases hempty : (input.take key.length).length = 0
    · rw [if_pos hempty]
      rw [List.length_take] at hempty
      have hnil : input = [] := List.eq_nil_of_length_eq_zero (by omega)
      subst hnil
      rfl
    · rw [if_neg hempty, List.length_append]
      rw [List.length_take] at hempty
      have hrec := ih (encrypt_rotate_key key 1) (input.drop key.length)
        (by rw [List.length_drop]; omega) (by rw [rotate_key_length]; omega)
      rw [hrec]
      show (List.zipWith Nat.xor (input.take key.length) key).length + _ = _
      rw [List.length_zipWith, List.length_take, List.length_drop]
      omega

theorem seq_selfinv (key input : List Nat) (hk : 0 < key.length) :
    encrypt_execute_sequential key (encrypt_execute_sequential key input) = input := by
  suffices h : ∀ n (key input : List Nat), input.length ≤ n → 0 < key.length →
      encrypt_execute_sequential key (encrypt_execute_sequential key input) = input from
    h input.length key input (Nat.le_refl _) hk
  intro n
  induction n with
  | zero =>
    intro key input hle _
    have hnil : input = [] := List.eq_nil_of_length_eq_zero (by omega)
    subst hnil
    rw [seq_nil, seq_nil]
  | succ n ih =>
    intro key input hle hk
    conv_lhs => rw [seq_unfold key input]
    by_cases hempty : (input.take key.length).length = 0
    · rw [if_pos hempty, seq_nil]
      rw [List.length_take] at hempty
      exact (List.eq_nil_of_length_eq_zero (by omega)).symm
    · rw [if_neg hempty]
      rw [List.length_take] at hempty
      have hkey' : 0 < (encrypt_rotate_key key 1).length := by
        rw [rotate_key_length]
        omega
      have henclen : (encrypt_block (input.take key.length) key).length
          = min key.length input.length := by
        show (List.zipWith Nat.xor (input.take key.length) key).length = _
        rw [List.length_zipWith, List.length_take]
        omega
      by_cases hge : key.length ≤ input.length
      · have he : (encrypt_block (input.take key.length) key).length = key.length := by
          omega
        rw [seq_unfold]
        rw [List.take_left' he, List.drop_left' he, if_neg (by omega)]
        rw [enc_enc (input.take key.length) key (by rw [List.length_take]; omega)]
        rw [ih (encrypt_rotate_key key 1) (input.drop key.length)
          (by rw [List.length_drop]; omega) hkey']
        exact List.take_append_drop key.length input
      · have hlt : input.length < key.length := by omega
        have htake : input.take key.length = input := List.take_of_length_le (by omega)
        have hdrop : input.drop key.length = [] := List.drop_eq_nil_of_le (by omega)
        rw [htake, hdrop, seq_nil, List.append_nil]
        rw [seq_unfold]
        have he : (encrypt_block input key).length = input.length := by
          rw [htake] at henclen
          omega
        rw [List.take_of_length_le (by omega), List.drop_eq_nil_of_le (by omega),
          if_neg (by omega), seq_nil, List.append_nil]
        exact enc_enc input key (by omega)

-- Parallel mode, coordinator side (src/encrypt.c lines 316-384).
-- The input stream is a byte list; fread of L bytes returns its first
-- min(L, remaining) bytes, so a short (non-empty) read happens exactly
-- at the end of the stream.

/-- Result of one submission round of encrypt_execute_parallel. -/
structure SubmitResult where
  submitted : List (Nat × List Nat)
  quit : Bool
  rest : List Nat
deriving Repr, DecidableEq

/-- The slot loop of one round (src/encrypt.c lines 332-359): read up
to the given number of chunks of keylength bytes; a read of zero bytes
sets quit and breaks; a non-empty read becomes a block (index, data)
appended to the process queue, and the stream index advances per
submitted block. -/
def submitRound (L idx : Nat) (input : List Nat) : Nat → SubmitResult
  | 0 => ⟨[], false, input⟩
  | slots + 1 =>
    let chunk := input.take L
    if chunk.length = 0 then ⟨[], true, input⟩
    else
      let r := submitRound L (idx + 1) (input.drop L) slots
      ⟨(idx, chunk) :: r.submitted, r.quit, r.rest⟩

theorem submitRound_succ (L idx : Nat) (input : List Nat) (N : Nat) :
    submitRound L idx input (N + 1) =
      if (input.take L).length = 0 then ⟨[], true, input⟩
      else
        ⟨(idx, input.take L) ::
            (submitRound L (idx + 1) (input.drop L) N).submitted,
          (submitRound L (idx + 1) (input.drop L) N).quit,
          (submitRound L (idx + 1) (input.drop L) N).rest⟩ := rfl

-- Worker side and the completion queue (src/encrypt.c lines 120-187).
-- The queue is a linked structure of heap nodes; a node id is its slot
-- in the nodes table, and next is the pointed-to node id (none = NULL).
-- This pointer-level model is needed because the C insertion code
-- manipulates the head and next pointers directly.

/-- One heap node of the completion queue: a completed block with its
stream index, its encrypted payload, and the next pointer. -/
structure CNode where
  index : Nat
  data : List Nat
  next : Option Nat
deriving Repr, DecidableEq

/-- Overwrite the next pointer of node id (no-op on a dangling id). -/
def setNext (nodes : List CNode) (id : Nat) (nx : Option Nat) : List CNode :=
  match nodes[id]? with
  | none => nodes
  | some n => nodes.set id ⟨n.index, n.data, nx⟩

/-- The search loop of the insertion (src/encrypt.c lines 164-172):
walk from the head; stop at the first node whose index exceeds the new
block's index (or at the end), returning previous and current.
previous starts at the head, exactly as in the C code. -/
def findInsPos (nodes : List CNode) (newIdx : Nat) : Nat → Option Nat → Nat → Nat × Option Nat
  | prev, cur, 0 => (prev, cur)
  | prev, none, _ + 1 => (prev, none)
  | prev, some c, fuel + 1 =>
    match nodes[c]? with
    | none => (prev, some c)
    | some node =>
      if newIdx < node.index then (prev, some c)
      else findInsPos nodes newIdx c node.next fuel

/-- The insertion of a completed block into the completion queue
(src/encrypt.c lines 162-180).  When the queue is empty the head is
set to the new node; otherwise previous->next is redirected to the new
node and the new node's next is set to current.  The head pointer is
never updated in the non-empty case, faithfully reproducing the C
code. -/
def insertC (nodes : List CNode) (head : Option Nat) (newId : Nat) :
    List CNode × Option Nat :=
  match nodes[newId]? with
  | none => (nodes, head)
  | some newNode =>
    match head with
    | none => (setNext nodes newId none, some newId)
    | some h =>
      let pc := findInsPos nodes newNode.index h (some h) nodes.length
      let nodes1 := setNext nodes pc.1 (some newId)
      let nodes2 := setNext nodes1 newId pc.2
      (nodes2, some h)

/-- Fold the insertion over a completion schedule (the order in which
the workers of one batch finish and insert their blocks). -/
def insertAll (nodes : List CNode) (head : Option Nat) : List Nat → List CNode × Option Nat
  | [] => (nodes, head)
  | j :: rest =>
    let r := insertC nodes head j
    insertAll r.1 r.2 rest

/-- The drain loop of the coordinator (src/encrypt.c lines 366-378):
follow next pointers from the head, emitting each node's payload.
The Bool records whether NULL was reached within the given fuel; the C
loop terminates exactly when the traversal reaches NULL. -/
def drainQ (nodes : List CNode) : Option Nat → Nat → List Nat × Bool
  | none, _ => ([], true)
  | some _, 0 => ([], false)
  | some c, fuel + 1 =>
    match nodes[c]? with
    | none => ([], true)
    | some node =>
      let r := drainQ nodes node.next fuel
      (node.data ++ r.1, r.2)

/-- The per-block work of encrypt_thread (src/encrypt.c lines 154-160):
copy the shared key, rotate it by the block index, and XOR the block. -/
def workerProcess (key : List Nat) (idx : Nat) (data : List Nat) : List Nat :=
  encrypt_block data (encrypt_rotate_key key idx)

/-- Heap of completion-queue nodes for one batch: node j holds the
worker-processed block j of the batch, next pointers all NULL. -/
def buildRoundNodes (key : List Nat) (blocks : List (Nat × List Nat)) : List CNode :=
  blocks.map fun b => ⟨b.1, workerProcess key b.1 b.2, none⟩

-- Process exit model (src/encrypt.c lines 419-479).

/-- encrypt (src/encrypt.c lines 419-450), restricted to the sequential
mode dispatch: the key file is none when keyfilename is NULL or fopen
fails.  Returns (retval, diagnostic printed on stderr, stdout bytes).
Each verify_bool failure prints a diagnostic and jumps to exit with
retval -1. -/
def encrypt_result (keyfile : Option (List Nat)) (input : List Nat) :
    Int × Bool × List Nat :=
  match keyfile with
  | none => (-1, true, [])
  | some key =>
    if key.length = 0 then (-1, true, [])
    else (0, false, encrypt_execute_sequential key input)

/-- main (src/encrypt.c lines 457-479): calls encrypt, discards its
return value, and always returns 0. -/
def main_result (keyfile : Option (List Nat)) (input : List Nat) :
    Int × Bool × List Nat :=
  let r := encrypt_result keyfile input
  (0, r.2.1, r.2.2)

-- Supporting facts about submission rounds.

theorem submitRound_nil_input (L idx : Nat) :
    ∀ N, (submitRound L idx [] N).submitted = [] ∧
      (submitRound L idx [] N).rest = [] := by
  intro N
  cases N with
  | zero => exact ⟨rfl, rfl⟩
  | succ M =>
    have h : submitRound L idx [] (M + 1) = ⟨[], true, []⟩ := by
      rw [submitRound_succ, List.take_nil]
      simp
    rw [h]
    exact ⟨rfl, rfl⟩

theorem submitRound_submitted_ne_nil (L : Nat) :
    ∀ (N idx : Nat) (input : List Nat),
      (submitRound L idx input N).submitted ≠ [] → input ≠ [] := by
  intro N idx input hne hnil
  subst hnil
  exact hne (submitRound_nil_input L idx N).1

/-- Behaviour of one submission round: at most N blocks are read; every
block before the last is full; blocks are never empty and never exceed
L bytes; the quit flag is set exactly when fewer than N blocks were
submitted, i.e. when a read returned zero bytes; and after a short
block the stream is exhausted. -/
theorem submitRound_spec5 (L : Nat) (hL : 0 < L) :
    ∀ (N idx : Nat) (input : List Nat),
      (submitRound L idx input N).submitted.length ≤ N ∧
      (∀ b ∈ (submitRound L idx input N).submitted.dropLast, b.2.length = L) ∧
      (∀ b ∈ (submitRound L idx input N).submitted,
        0 < b.2.length ∧ b.2.length ≤ L) ∧
      ((submitRound L idx input N).quit = true ↔
        (submitRound L idx input N).submitted.length < N) ∧
      (∀ b ∈ (submitRound L idx input N).submitted, b.2.length < L →
        (submitRound L idx input N).rest = []) := by
  intro N
  induction N with
  | zero =>
    intro idx input
    exact ⟨Nat.le_refl 0, by simp [submitRound], by simp [submitRound],
      by simp [submitRound], by simp [submitRound]⟩
  | succ N ih =>
    intro idx input
    rw [submitRound_succ]
    by_cases hc : (input.take L).length = 0
    · rw [if_pos hc]
      refine ⟨by simp, by simp, by simp, ?_, by simp⟩
      simp
    · rw [if_neg hc]
      obtain ⟨ih1, ih2, ih3, ih4, ih5⟩ := ih (idx + 1) (input.drop L)
      dsimp only
      rw [List.length_take] at hc
      refine ⟨?_, ?_, ?_, ?_, ?_⟩
      · simp only [List.length_cons]
        omega
      · intro b hb
        cases hsub : (submitRound L (idx + 1) (input.drop L) N).submitted with
        | nil =>
          rw [hsub] at hb
          simp at hb
        | cons x xs =>
          rw [hsub] at hb
          rw [List.dropLast_cons₂] at hb
          rcases List.mem_cons.mp hb with hb1 | hb2
          · subst hb1
            have hdropne : input.drop L ≠ [] := by
              apply submitRound_submitted_ne_nil L N (idx + 1) (input.drop L)
              rw [hsub]
              simp
            have hlen : L < input.length := by
              by_contra hle
              exact hdropne (List.drop_eq_nil_of_le (by omega))
            show (input.take L).length = L
            rw [List.length_take]
            omega
          · have := ih2 b
            rw [hsub] at this
            exact this hb2
      · intro b hb
        rcases List.mem_cons.mp hb with hb1 | hb2
        · subst hb1
          show 0 < (input.take L).length ∧ (input.take L).length ≤ L
          rw [List.length_take]
          omega
        · exact ih3 b hb2
      · simp only [List.length_cons]
        constructor
        · intro hq
          have := ih4.mp hq
          omega
        · intro hlt
          exact ih4.mpr (by omega)
      · intro b hb hshort
        rcases List.mem_cons.mp hb with hb1 | hb2
        · subst hb1
          rw [List.length_take] at hshort
          have hdropnil : input.drop L = [] :=
            List.drop_eq_nil_of_le (by omega)
          rw [hdropnil]
          exact (submitRound_nil_input L (idx + 1) N).2
        · exact ih5 b hb2 hshort

theorem lsb_pass (b c : Nat) : (shl1 b + msbBit c) % 2 = msbBit c := by
  have h1 := shl1_even b
  have h2 := msbBit_le c
  omega

-- Claim theorems.

/-- C1: the claim that parallel output equals sequential output for
every pool width fails on the code.  Key 0x01, input 0x00 0x00, pool
width 2: sequential mode writes 0x01 0x02.  In parallel mode, when the
worker holding block 1 inserts into the empty completion queue first,
the subsequent insertion of block 0 breaks before the head; the head
pointer is never updated (src/encrypt.c lines 174-179), so node 1
stays at the head, node1.next is pointed at node 0 and node0.next back
at node 1.  The drain then emits 2, 1, 2 within three steps and never
reaches the end of the queue, so parallel output diverges from the
sequential output 1, 2. -/
theorem c1_parallel_out_of_order_divergence :
    encrypt_execute_sequential [1] [0, 0] = [1, 2] ∧
    (submitRound 1 0 [0, 0] 2).submitted = [(0, [0]), (1, [0])] ∧
    insertAll (buildRoundNodes [1] [(0, [0]), (1, [0])]) none [1, 0]
      = ([⟨0, [1], some 1⟩, ⟨1, [2], some 0⟩], some 1) ∧
    drainQ [⟨0, [1], some 1⟩, ⟨1, [2], some 0⟩] (some 1) 3 = ([2, 1, 2], false) := by
  refine ⟨?_, by decide, by decide, by decide⟩
  simp [seq_unfold, encrypt_block, encrypt_rotate_key, encrypt_rotate_key_bits,
    rotBitsPass, passAux, shl1, msbBit]
  decide

/-- C3: inserting a completed block whose index is smaller than the
head's corrupts the completion queue.  The queue holds one block with
index 1 (node 0, the head); the worker inserts the block with index 0
(node 1).  The search breaks at the head with previous = head, so the
code sets head.next to the new node and the new node's next back to the
head, while the head pointer still names the index-1 node: the
traversal from the head is 9, 7, 9, 7, ... — not the sorted two-block
queue — and never reaches the end. -/
theorem c3_insert_before_head_corrupts :
    insertC [⟨1, [9], none⟩, ⟨0, [7], none⟩] (some 0) 1
      = ([⟨1, [9], some 1⟩, ⟨0, [7], some 0⟩], some 0) ∧
    drainQ [⟨1, [9], some 1⟩, ⟨0, [7], some 0⟩] (some 0) 4
      = ([9, 7, 9, 7], false) := by
  decide

/-- C4: on a setup failure (missing/unopenable key file, or an empty
key file) encrypt prints a diagnostic, produces no output and returns
-1, but main (src/encrypt.c line 478) discards the return value and
always returns 0 — the process exit status is 0, not non-zero.  Normal
completion also exits 0. -/
theorem c4_exit_status :
    encrypt_result none [] = (-1, true, []) ∧
    (main_result none []).1 = 0 ∧
    encrypt_result (some []) [7, 7] = (-1, true, []) ∧
    (main_result (some []) [7, 7]).1 = 0 ∧
    (main_result (some [1]) [5]).1 = 0 :=
  ⟨rfl, rfl, rfl, rfl, rfl⟩

/-- C5 counterexample: block size 2, pool width 2, 3-byte stream.  The
short 1-byte read lands in the final slot; the block is submitted and
the slot loop ends with the quit flag still clear, so the first short
read did not stop the round early and did not mark end-of-input. -/
theorem c5_counterexample :
    (submitRound 2 0 [9, 9, 9] 2).quit = false ∧
    (submitRound 2 0 [9, 9, 9] 2).submitted.map (fun b => b.2.length) = [2, 1] := by
  decide

/-- C5 (amended): each round reads at most N chunks of L bytes; every
chunk before the last is full; chunks are non-empty and at most L
bytes; end-of-input is flagged exactly when fewer than N blocks were
submitted, i.e. when some read returned zero bytes; and after a short
block the stream is exhausted, so no further block is ever read. -/
theorem c5_round_submission (L N idx : Nat) (input : List Nat) (hL : 0 < L) :
    (submitRound L idx input N).submitted.length ≤ N ∧
    (∀ b ∈ (submitRound L idx input N).submitted.dropLast, b.2.length = L) ∧
    (∀ b ∈ (submitRound L idx input N).submitted,
      0 < b.2.length ∧ b.2.length ≤ L) ∧
    ((submitRound L idx input N).quit = true ↔
      (submitRound L idx input N).submitted.length < N) ∧
    (∀ b ∈ (submitRound L idx input N).submitted, b.2.length < L →
      (submitRound L idx input N).rest = []) :=
  submitRound_spec5 L hL N idx input

/-- C5 witness at L = 3, N = 2, 4-byte stream. -/
theorem c5_witness :
    0 < 3 ∧
    ((submitRound 3 0 [1, 2, 3, 4] 2).submitted.length ≤ 2 ∧
      (∀ b ∈ (submitRound 3 0 [1, 2, 3, 4] 2).submitted.dropLast, b.2.length = 3) ∧
      (∀ b ∈ (submitRound 3 0 [1, 2, 3, 4] 2).submitted,
        0 < b.2.length ∧ b.2.length ≤ 3) ∧
      ((submitRound 3 0 [1, 2, 3, 4] 2).quit = true ↔
        (submitRound 3 0 [1, 2, 3, 4] 2).submitted.length < 2) ∧
      (∀ b ∈ (submitRound 3 0 [1, 2, 3, 4] 2).submitted, b.2.length < 3 →
        (submitRound 3 0 [1, 2, 3, 4] 2).rest = [])) :=
  ⟨by decide, c5_round_submission 3 2 0 [1, 2, 3, 4] (by decide)⟩

/-- C6 counterexample: running sequentially on 0x00 0x00 with key 0x01
produces 0x01 0x02.  Re-running on that output in parallel mode with
pool width 2, with block 1 completing first, corrupts the completion
queue into a cycle: the drain emits three bytes 0, 0, 0 without ever
finishing, instead of reproducing the two original bytes — so the
claim fails for that pool width and completion order. -/
theorem c6_counterexample :
    encrypt_execute_sequential [1] [0, 0] = [1, 2] ∧
    (submitRound 1 0 [1, 2] 2).submitted = [(0, [1]), (1, [2])] ∧
    insertAll (buildRoundNodes [1] [(0, [1]), (1, [2])]) none [1, 0]
      = ([⟨0, [0], some 1⟩, ⟨1, [0], some 0⟩], some 1) ∧
    drainQ [⟨0, [0], some 1⟩, ⟨1, [0], some 0⟩] (some 1) 3 = ([0, 0, 0], false) := by
  refine ⟨?_, by decide, by decide, by decide⟩
  simp [seq_unfold, encrypt_block, encrypt_rotate_key, encrypt_rotate_key_bits,
    rotBitsPass, passAux, shl1, msbBit]
  decide

/-- C6 (amended): in sequential mode (thread count 0) re-running the
program on previously produced output with the identical key
reproduces the original input exactly. -/
theorem c6_sequential_selfinverse (key input : List Nat) (hk : 0 < key.length) :
    encrypt_execute_sequential key (encrypt_execute_sequential key input) = input :=
  seq_selfinv key input hk

/-- C6 witness at key 0x01, input 5 6 7. -/
theorem c6_witness :
    0 < ([1] : List Nat).length ∧
    encrypt_execute_sequential [1] (encrypt_execute_sequential [1] [5, 6, 7])
      = [5, 6, 7] :=
  ⟨by decide, c6_sequential_selfinverse [1] [5, 6, 7] (by decide)⟩

/-- C7 counterexample: key 0x01, input 0x03 0x04, pool width 2,
block 1 completing first.  The corrupted cyclic completion queue makes
the drain write 6, 2, 6 — already three bytes, more than the two bytes
read — without terminating, so total bytes written does not equal
total bytes read in that execution. -/
theorem c7_counterexample :
    encrypt_execute_sequential [1] [3, 4] = [2, 6] ∧
    insertAll (buildRoundNodes [1] [(0, [3]), (1, [4])]) none [1, 0]
      = ([⟨0, [2], some 1⟩, ⟨1, [6], some 0⟩], some 1) ∧
    drainQ [⟨0, [2], some 1⟩, ⟨1, [6], some 0⟩] (some 1) 3 = ([6, 2, 6], false) ∧
    2 < ([6, 2, 6] : List Nat).length := by
  refine ⟨?_, by decide, by decide, by decide⟩
  simp [seq_unfold, encrypt_block, encrypt_rotate_key, encrypt_rotate_key_bits,
    rotBitsPass, passAux, shl1, msbBit]
  decide

/-- C7 (amended): in sequential mode the number of bytes written to
standard output equals the number of bytes read from standard input. -/
theorem c7_sequential_length (key input : List Nat) (hk : 0 < key.length) :
    (encrypt_execute_sequential key input).length = input.length :=
  seq_length key input hk

/-- C7 witness at key 0x01, input 4 5 6. -/
theorem c7_witness :
    0 < ([1] : List Nat).length ∧
    (encrypt_execute_sequential [1] [4, 5, 6]).length
      = ([4, 5, 6] : List Nat).length :=
  ⟨by decide, c7_sequential_length [1] [4, 5, 6] (by decide)⟩

/-- C8: the claim that with pool width 4 and an input of exactly 10 L
bytes the program submits and drains exactly 3 batches of sizes 4, 4
and 2 fails on the code.  With key 0x01 and a 10-byte input the slot
loop does read three successive batches of those sizes with no short
block, but when the first batch completes in the order 1, 2, 3, 0 the
final insertion (block 0, whose index is below the head's) corrupts
the result queue: the head stays at block 1, block1.next is redirected
to block 0 and block0.next back to block 1, blocks 2 and 3 become
unreachable, and the drain emits blocks 1, 0, 1, 0, ... without ever
reaching the end of the queue — so the first batch is never fully
drained and the second and third batches are never submitted. -/
theorem c8_batch_drain_divergence :
    submitRound 1 0 [0, 0, 0, 0, 0, 0, 0, 0, 0, 0] 4
      = ⟨[(0, [0]), (1, [0]), (2, [0]), (3, [0])], false, [0, 0, 0, 0, 0, 0]⟩ ∧
    submitRound 1 4 [0, 0, 0, 0, 0, 0] 4
      = ⟨[(4, [0]), (5, [0]), (6, [0]), (7, [0])], false, [0, 0]⟩ ∧
    submitRound 1 8 [0, 0] 4 = ⟨[(8, [0]), (9, [0])], true, []⟩ ∧
    insertAll (buildRoundNodes [1] [(0, [0]), (1, [0]), (2, [0]), (3, [0])])
        none [1, 2, 3, 0]
      = ([⟨0, [1], some 1⟩, ⟨1, [2], some 0⟩, ⟨2, [4], some 3⟩,
          ⟨3, [8], none⟩], some 1) ∧
    drainQ [⟨0, [1], some 1⟩, ⟨1, [2], some 0⟩, ⟨2, [4], some 3⟩,
        ⟨3, [8], none⟩] (some 1) 5
      = ([2, 1, 2, 1, 2], false) := by
  refine ⟨by decide, by decide, by decide, by decide, by decide⟩

/-- C9 counterexample: the claim's direction of carry is wrong.  On the
key 0x80 0x00 0x00, the claim predicts that the most-significant bit
of byte 0 moves into the least-significant bit of byte 1, so byte 1 of
the result would be odd; the code carries the top bit of byte i+1 into
the low bit of byte i, and the pass yields 0x00 0x00 0x01 with byte 1
even. -/
theorem c9_counterexample :
    ¬ ((rotBitsPass [128, 0, 0]).getD 1 0 % 2
        = msbBit (([128, 0, 0] : List Nat).getD 0 0)) := by
  decide

/-- C9 (amended): each single-bit pass scans all L bytes once, carrying
the most-significant bit of byte i+1 into the least-significant bit of
byte i, while the most-significant bit of byte 0 wraps into the
least-significant bit of byte L-1; each pass maps the key, viewed as an
8 L-bit big-endian bit string, to its left rotation by 1 bit, and B
passes rotate it left by B bits. -/
theorem c9_bit_pass (key : List Nat) (hL : 0 < key.length) (hb : Bounded key) :
    keyBits (rotBitsPass key) = (keyBits key).rotate 1 ∧
    (∀ i, i + 1 < key.length →
      (rotBitsPass key).getD i 0 % 2 = msbBit (key.getD (i + 1) 0)) ∧
    (rotBitsPass key).getD (key.length - 1) 0 % 2 = msbBit (key.getD 0 0) ∧
    (∀ B, keyBits (encrypt_rotate_key_bits key B) = (keyBits key).rotate B) := by
  refine ⟨rotBitsPass_keyBits key hb, ?_, ?_,
    fun B => rotate_key_bits_keyBits B key hb⟩
  · intro i hi
    cases key with
    | nil => simp at hL
    | cons k0 t =>
      show (passAux k0 (k0 :: t)).getD i 0 % 2 = _
      rw [passAux_getD k0 t k0 i (by simp only [List.length_cons] at hi ⊢; omega)]
      rw [if_pos hi]
      exact lsb_pass _ _
  · cases key with
    | nil => simp at hL
    | cons k0 t =>
      show (passAux k0 (k0 :: t)).getD ((k0 :: t).length - 1) 0 % 2 = _
      rw [passAux_getD k0 t k0 ((k0 :: t).length - 1)
        (by simp only [List.length_cons]; omega)]
      rw [if_neg (by simp only [List.length_cons]; omega)]
      rw [lsb_pass]
      rfl

/-- C9 witness at key 0x80 0x00 0x03. -/
theorem c9_witness :
    0 < ([128, 0, 3] : List Nat).length ∧ Bounded [128, 0, 3] ∧
    (keyBits (rotBitsPass [128, 0, 3]) = (keyBits [128, 0, 3]).rotate 1 ∧
      (∀ i, i + 1 < ([128, 0, 3] : List Nat).length →
        (rotBitsPass [128, 0, 3]).getD i 0 % 2
          = msbBit (([128, 0, 3] : List Nat).getD (i + 1) 0)) ∧
      (rotBitsPass [128, 0, 3]).getD (([128, 0, 3] : List Nat).length - 1) 0 % 2
        = msbBit (([128, 0, 3] : List Nat).getD 0 0) ∧
      (∀ B, keyBits (encrypt_rotate_key_bits [128, 0, 3] B)
        = (keyBits [128, 0, 3]).rotate B)) :=
  ⟨by decide, by decide, c9_bit_pass [128, 0, 3] (by decide) (by decide)⟩

